import Mathlib

/-!
Shallow embedding of `scilpy/reconst/bingham_metrics_along_streamlines.py`
(functions `fiber_density_map_along_streamlines` and
`fd_sum_along_streamlines`) over exact real arithmetic.

Modelling conventions:
* numpy float arithmetic is modelled by exact real arithmetic (`ℝ`);
* numpy `IndexError` is modelled by `Except Unit`, with `.error ()` for any
  indexing fault; numpy basic indexing resolves an integer index `i` into an
  axis of extent `n` to `i` when `0 ≤ i < n`, to `i + n` when `-n ≤ i < 0`,
  and raises otherwise (`npIndex` below);
* `astype(int)` truncates toward zero (`truncZ` below);
* the Grid Intersection Engine (`grid_intersections`) and the Lobe Direction
  Resolver (`bingham_to_peak_direction`) are external collaborators of the
  core (spec section 6); the accumulator below consumes the engine's output
  (one point list per streamline) directly and takes the resolver as a pure
  function argument `pk`.
-/

open Real

/-- A 3D point or vector with real coordinates. -/
structure Vec3 where
  x : ℝ
  y : ℝ
  z : ℝ

/-- Componentwise addition of 3D vectors. -/
def vadd (a b : Vec3) : Vec3 := ⟨a.x + b.x, a.y + b.y, a.z + b.z⟩

/-- Componentwise subtraction of 3D vectors, `b - a` written `vsub b a`. -/
def vsub (b a : Vec3) : Vec3 := ⟨b.x - a.x, b.y - a.y, b.z - a.z⟩

/-- Scalar multiplication of a 3D vector. -/
def smul3 (c : ℝ) (v : Vec3) : Vec3 := ⟨c * v.x, c * v.y, c * v.z⟩

/-- Euclidean dot product of two 3D vectors (`np.dot`). -/
def dot3 (a b : Vec3) : ℝ := a.x * b.x + a.y * b.y + a.z * b.z

/-- Euclidean norm of a 3D vector (`np.linalg.norm`). -/
noncomputable def norm3 (v : Vec3) : ℝ := Real.sqrt (dot3 v v)

/-- Truncation toward zero, the semantics of numpy `astype(int)` on floats. -/
noncomputable def truncZ (x : ℝ) : ℤ := if 0 ≤ x then ⌊x⌋ else ⌈x⌉

/-- Componentwise truncation of a point to an integer voxel index. -/
noncomputable def truncVec (v : Vec3) : ℤ × ℤ × ℤ := (truncZ v.x, truncZ v.y, truncZ v.z)

/-- numpy basic-indexing resolution of one integer index into an axis of
extent `n`: in-range indices map to themselves, negative indices in
`[-n, -1]` wrap to the end of the axis, anything else is an `IndexError`. -/
def npIndex (n : ℕ) (i : ℤ) : Option ℕ :=
  if 0 ≤ i ∧ i < (n : ℤ) then some i.toNat
  else if -(n : ℤ) ≤ i ∧ i < 0 then some (i + (n : ℤ)).toNat
  else none

/-- Resolution of a 3-tuple voxel index against spatial extents. -/
def npIndex3 (nx ny nz : ℕ) (v : ℤ × ℤ × ℤ) : Option (ℕ × ℕ × ℕ) :=
  match npIndex nx v.1, npIndex ny v.2.1, npIndex nz v.2.2 with
  | some a, some b, some c => some (a, b, c)
  | _, _, _ => none

/-- The Bingham-parameter volume `bingham_coeffs`, of shape
(X, Y, Z, N_LOBES, NB_PARAMS): per voxel, a list of per-lobe parameter rows. -/
structure BVol where
  nx : ℕ
  ny : ℕ
  nz : ℕ
  data : ℕ × ℕ × ℕ → List (List ℝ)

/-- The fiber-density volume `fd`, of shape (X, Y, Z, N_LOBES): per voxel, a
list of per-lobe density values. -/
structure FVol where
  nx : ℕ
  ny : ℕ
  nz : ℕ
  data : ℕ × ℕ × ℕ → List ℝ

/-- An accumulator volume (`fd_sum_map` / `weight_map`), a real value per
voxel index. -/
abbrev Map3 := ℕ × ℕ × ℕ → ℝ

/-- The all-zero accumulator volume (`np.zeros`). -/
def zeroMap : Map3 := fun _ => 0

/-- In-place accumulation `m[v] += x` on an accumulator volume. -/
def updAdd (m : Map3) (v : ℕ × ℕ × ℕ) (x : ℝ) : Map3 :=
  fun u => if u = v then m u + x else m u

/-- One surviving streamline segment: its start point (`seg_start` entry), its
direction vector (`segments` entry) and its Euclidean length
(`seg_lengths` entry). -/
structure Seg where
  start : Vec3
  dvec : Vec3
  len : ℝ

/-- Segment extraction of `fd_sum_along_streamlines`: consecutive differences
of the crossing points, dropping segments of zero length and keeping each
surviving segment's start point aligned with it. -/
noncomputable def segsOf : List Vec3 → List Seg
  | a :: b :: rest =>
    (if norm3 (vsub b a) = 0 then [] else [⟨a, vsub b a, norm3 (vsub b a)⟩])
      ++ segsOf (b :: rest)
  | _ => []

/-- The voxel index of a segment, `(seg_start + 0.5 * segments).astype(int)`. -/
noncomputable def voxelOf (s : Seg) : ℤ × ℤ × ℤ :=
  truncVec (vadd s.start (smul3 (1 / 2) s.dvec))

/-- First index of a maximal element of a list, the semantics of
`np.argmax` (ties broken by the lowest index). -/
noncomputable def argmaxIdx : List ℝ → ℕ
  | [] => 0
  | a :: l => if ∀ c ∈ l, c ≤ a then 0 else argmaxIdx l + 1

/-- Lookup `fd[vox_idx][lobe_idx]`: resolve the spatial index against the
density volume's extents, then the lobe index into that voxel's row. -/
noncomputable def lobeLookup (F : FVol) (vox : ℤ × ℤ × ℤ) (i : ℕ) : Except Unit ℝ :=
  match npIndex3 F.nx F.ny F.nz vox with
  | none => .error ()
  | some vf =>
    match (F.data vf).get? i with
    | none => .error ()
    | some d => .ok d

open Classical in
/-- Lobe selection of `fd_sum_along_streamlines`: if some absolute cosine
similarity strictly exceeds `min_cos_theta`, look up the density of the
`np.argmax` lobe, otherwise `fd_val = 0`. -/
noncomputable def fdValSel (minCos : ℝ) (cosList : List ℝ)
    (lookup : ℕ → Except Unit ℝ) : Except Unit ℝ :=
  if ∃ c ∈ cosList, minCos < c then lookup (argmaxIdx cosList) else .ok 0

/-- Contribution of one surviving segment in `fd_sum_along_streamlines`:
resolve the voxel index against the Bingham volume, compute the absolute
cosine similarities of the unit segment direction with the per-lobe peak
directions, select the density value `fd_val` and the weight `norm_weight`,
and return the voxel (resolved against the density volume's spatial
extents, where the two maps live) together with the two accumulated
amounts `fd_val * norm_weight` and `norm_weight`. -/
noncomputable def segDelta (pk : List ℝ → Vec3) (B : BVol) (F : FVol)
    (minCos : ℝ) (lw : Bool) (s : Seg) :
    Except Unit ((ℕ × ℕ × ℕ) × ℝ × ℝ) :=
  let vox := voxelOf s
  match npIndex3 B.nx B.ny B.nz vox with
  | none => .error ()
  | some vb =>
    let dir := smul3 s.len⁻¹ s.dvec
    let cosList := (B.data vb).map fun r => |dot3 dir (pk r)|
    let nw := if lw then s.len else 1
    match fdValSel minCos cosList (lobeLookup F vox) with
    | .error e => .error e
    | .ok fdv =>
      match npIndex3 F.nx F.ny F.nz vox with
      | none => .error ()
      | some vm => .ok (vm, fdv * nw, nw)

/-- Processing of one surviving segment: the in-place accumulations
`fd_sum_map[vox_idx] += fd_val * norm_weight` and
`weight_map[vox_idx] += norm_weight`. -/
noncomputable def segStep (pk : List ℝ → Vec3) (B : BVol) (F : FVol)
    (minCos : ℝ) (lw : Bool) (st : Map3 × Map3) (s : Seg) :
    Except Unit (Map3 × Map3) :=
  match segDelta pk B F minCos lw s with
  | .error e => .error e
  | .ok (vm, ds, dw) => .ok (updAdd st.1 vm ds, updAdd st.2 vm dw)

/-- The inner loop of `fd_sum_along_streamlines` over a streamline's
surviving segments. -/
noncomputable def runSegs (pk : List ℝ → Vec3) (B : BVol) (F : FVol)
    (minCos : ℝ) (lw : Bool) : Map3 × Map3 → List Seg → Except Unit (Map3 × Map3)
  | st, [] => .ok st
  | st, s :: rest =>
    match segStep pk B F minCos lw st s with
    | .error e => .error e
    | .ok st' => runSegs pk B F minCos lw st' rest

/-- The outer loop of `fd_sum_along_streamlines` over the grid-intersected
streamlines. -/
noncomputable def runStreams (pk : List ℝ → Vec3) (B : BVol) (F : FVol)
    (minCos : ℝ) (lw : Bool) : Map3 × Map3 → List (List Vec3) → Except Unit (Map3 × Map3)
  | st, [] => .ok st
  | st, pts :: rest =>
    match runSegs pk B F minCos lw st (segsOf pts) with
    | .error e => .error e
    | .ok st' => runStreams pk B F minCos lw st' rest

/-- Conversion of `max_theta` (degrees) to `min_cos_theta`,
`np.cos(np.radians(max_theta))`. -/
noncomputable def minCosOf (maxTheta : ℝ) : ℝ := Real.cos (maxTheta * π / 180)

/-- The accumulator `fd_sum_along_streamlines`, acting on the output of the
Grid Intersection Engine (one crossing-point list per streamline): returns
the fiber-density sum map and the weight map, or an indexing fault. -/
noncomputable def fd_sum_along_streamlines (pk : List ℝ → Vec3) (B : BVol)
    (F : FVol) (maxTheta : ℝ) (lw : Bool) (crossed : List (List Vec3)) :
    Except Unit (Map3 × Map3) :=
  runStreams pk B F (minCosOf maxTheta) lw (zeroMap, zeroMap) crossed

/-- The normalization of `fiber_density_map_along_streamlines`:
`fd_sum[non_zeros] /= weights[non_zeros]`, dividing exactly at the voxels
where the sum map is nonzero. -/
noncomputable def normalizeMaps (s w : Map3) : Map3 :=
  fun v => if s v = 0 then s v else s v / w v

/-- Normalization seen as a transform of the pair of stores: only the sum
volume is written, the weight volume is returned as it came in. -/
noncomputable def normalizePair (s w : Map3) : Map3 × Map3 :=
  (normalizeMaps s w, w)

/-- The composed map `fiber_density_map_along_streamlines`
(`compute_density_map` of the spec): accumulate, then normalize. -/
noncomputable def fiber_density_map_along_streamlines (pk : List ℝ → Vec3)
    (B : BVol) (F : FVol) (maxTheta : ℝ) (lw : Bool)
    (crossed : List (List Vec3)) : Except Unit Map3 :=
  match fd_sum_along_streamlines pk B F maxTheta lw crossed with
  | .error e => .error e
  | .ok (s, w) => .ok (normalizeMaps s w)

/-- Coordinate space of a stateful tractogram container. -/
inductive Space
  | rasmm
  | vox
deriving DecidableEq

/-- Coordinate origin convention of a stateful tractogram container. -/
inductive Origin
  | center
  | corner
deriving DecidableEq

/-- Modelled from the spec: the caller's streamline container (the external
`StatefulTractogram`), carrying its current coordinate space and origin, the
world-to-grid transform of the reference image, and the streamline points
expressed in the current space and origin. -/
structure SFT where
  space : Space
  origin : Origin
  invAffine : Vec3 → Vec3
  strs : List (List Vec3)

/-- Modelled from the spec: `sft.to_vox()` of the external tractogram
container converts the streamline coordinates to voxel space in place (a
no-op when already in voxel space). -/
def SFT.to_vox (s : SFT) : SFT :=
  if s.space = Space.vox then s
  else { s with space := Space.vox, strs := s.strs.map (List.map s.invAffine) }

/-- Modelled from the spec: `sft.to_corner()` of the external tractogram
container moves the coordinate origin from the voxel center to the voxel
corner in place, shifting every point by one half voxel (a no-op when the
origin is already the corner). -/
noncomputable def SFT.to_corner (s : SFT) : SFT :=
  if s.origin = Origin.corner then s
  else { s with origin := Origin.corner,
                strs := s.strs.map (List.map (vadd ⟨1 / 2, 1 / 2, 1 / 2⟩)) }

/-- The accumulator seen from the caller: `fd_sum_along_streamlines` first
converts the caller's tractogram to voxel space and corner origin in place,
then feeds its streamlines through the external Grid Intersection Engine
`gi` and accumulates; the first component of the result is the caller's
container as the call leaves it. -/
noncomputable def fd_sum_sft (pk : List ℝ → Vec3) (gi : List Vec3 → List Vec3)
    (B : BVol) (F : FVol) (maxTheta : ℝ) (lw : Bool) (sft : SFT) :
    SFT × Except Unit (Map3 × Map3) :=
  ((sft.to_vox).to_corner,
   fd_sum_along_streamlines pk B F maxTheta lw
     (((sft.to_vox).to_corner).strs.map gi))

/-- Nondegeneracy of a crossing-point list: no two consecutive points
coincide, so every raw segment has a nonzero direction vector. -/
def allPairsNonZero : List Vec3 → Prop
  | a :: b :: rest => vsub b a ≠ ⟨0, 0, 0⟩ ∧ allPairsNonZero (b :: rest)
  | _ => True

/-- The lobe resolver of the end-to-end scenario: every lobe-parameter row
resolves to the peak direction (1, 0, 0). -/
noncomputable def pkOne : List ℝ → Vec3 := fun _ => ⟨1, 0, 0⟩

/-- A 1×1×1 Bingham volume with a single lobe per voxel. -/
def Bone : BVol := ⟨1, 1, 1, fun _ => [[]]⟩

/-- A 1×1×1 density volume whose single lobe has density 2. -/
noncomputable def Fone : FVol := ⟨1, 1, 1, fun _ => [2]⟩

/-- The crossing points of the end-to-end scenario: one straight segment of
length 1/2 along the x axis inside voxel (0, 0, 0). -/
noncomputable def ptsOne : List Vec3 := [⟨1 / 4, 1 / 2, 1 / 2⟩, ⟨3 / 4, 1 / 2, 1 / 2⟩]

/-- Crossing points yielding the voxel index (-1, 0, 0): a unit segment along
the x axis whose midpoint has x coordinate -11/10. -/
noncomputable def ptsNeg : List Vec3 := [⟨-(8 / 5), 1 / 2, 1 / 2⟩, ⟨-(3 / 5), 1 / 2, 1 / 2⟩]

/-- Crossing points yielding the voxel index (2, 0, 0): a unit segment along
the x axis whose midpoint has x coordinate 26/10. -/
noncomputable def ptsFar : List Vec3 := [⟨21 / 10, 1 / 2, 1 / 2⟩, ⟨31 / 10, 1 / 2, 1 / 2⟩]

/-- A 2×2×2 Bingham volume with a single lobe per voxel, spatially mismatched
with the 1×1×1 density volume `Fone`. -/
def Btwo : BVol := ⟨2, 2, 2, fun _ => [[]]⟩

/-- The dot product of a vector with itself is nonnegative. -/
theorem dot3_self_nonneg (v : Vec3) : 0 ≤ dot3 v v := by
  unfold dot3
  nlinarith [sq_nonneg v.x, sq_nonneg v.y, sq_nonneg v.z]

/-- The Euclidean norm is nonnegative. -/
theorem norm3_nonneg (v : Vec3) : 0 ≤ norm3 v := Real.sqrt_nonneg _

/-- The Euclidean norm vanishes exactly on the zero vector. -/
theorem norm3_eq_zero (v : Vec3) : norm3 v = 0 ↔ v = ⟨0, 0, 0⟩ := by
  unfold norm3
  rw [Real.sqrt_eq_zero (dot3_self_nonneg v)]
  constructor
  · intro h
    unfold dot3 at h
    have hx : v.x = 0 := by nlinarith [sq_nonneg v.y, sq_nonneg v.z, sq_nonneg v.x]
    have hy : v.y = 0 := by nlinarith [sq_nonneg v.y, sq_nonneg v.z, sq_nonneg v.x]
    have hz : v.z = 0 := by nlinarith [sq_nonneg v.y, sq_nonneg v.z, sq_nonneg v.x]
    cases v
    simp_all
  · intro h
    subst h
    unfold dot3
    ring

/-- The Euclidean norm of a nonzero vector is positive. -/
theorem norm3_pos (v : Vec3) (h : v ≠ ⟨0, 0, 0⟩) : 0 < norm3 v :=
  lt_of_le_of_ne (norm3_nonneg v) (fun h0 => h ((norm3_eq_zero v).mp h0.symm))

/-- One in-place accumulation equals a pointwise addition of a one-voxel
bump map. -/
theorem updAdd_eq_add (m : Map3) (v : ℕ × ℕ × ℕ) (x : ℝ) :
    updAdd m v x = m + updAdd zeroMap v x := by
  funext u
  by_cases h : u = v <;> simp [updAdd, zeroMap, h]

/-- Pair form of `updAdd_eq_add`. -/
theorem updAdd_pair (st : Map3 × Map3) (vm : ℕ × ℕ × ℕ) (ds dw : ℝ) :
    (updAdd st.1 vm ds, updAdd st.2 vm dw)
      = st + (updAdd zeroMap vm ds, updAdd zeroMap vm dw) := by
  rw [updAdd_eq_add st.1, updAdd_eq_add st.2]
  rfl

/-- The zero accumulator pair is the additive zero. -/
theorem zeroPair_eq : ((zeroMap, zeroMap) : Map3 × Map3) = 0 := rfl

/-- A segment's state update commutes with starting from the zero state and
adding the delta afterwards. -/
theorem segStep_shift (pk : List ℝ → Vec3) (B : BVol) (F : FVol) (mc : ℝ)
    (lw : Bool) (st : Map3 × Map3) (s : Seg) :
    segStep pk B F mc lw st s =
      Except.map (fun d => st + d) (segStep pk B F mc lw (zeroMap, zeroMap) s) := by
  unfold segStep
  cases h : segDelta pk B F mc lw s with
  | error e => rfl
  | ok d =>
    obtain ⟨vm, ds, dw⟩ := d
    simp only [Except.map]
    rw [updAdd_pair]

/-- The inner segment loop started at any state equals the loop started at
the zero state with the state added afterwards. -/
theorem runSegs_shift (pk : List ℝ → Vec3) (B : BVol) (F : FVol) (mc : ℝ)
    (lw : Bool) (l : List Seg) :
    ∀ st : Map3 × Map3, runSegs pk B F mc lw st l =
      Except.map (fun d => st + d) (runSegs pk B F mc lw (zeroMap, zeroMap) l) := by
  induction l with
  | nil =>
    intro st
    simp only [runSegs, Except.map]
    rw [zeroPair_eq, add_zero]
  | cons s rest ih =>
    intro st
    simp only [runSegs, segStep]
    cases hd : segDelta pk B F mc lw s with
    | error e => rfl
    | ok d =>
      obtain ⟨vm, ds, dw⟩ := d
      simp only []
      rw [ih, ih (updAdd zeroMap vm ds, updAdd zeroMap vm dw)]
      cases hb : runSegs pk B F mc lw (zeroMap, zeroMap) rest with
      | error e => rfl
      | ok d2 =>
        simp only [Except.map]
        rw [updAdd_pair, add_assoc]

/-- The outer streamline loop started at any state equals the loop started at
the zero state with the state added afterwards. -/
theorem runStreams_shift (pk : List ℝ → Vec3) (B : BVol) (F : FVol) (mc : ℝ)
    (lw : Bool) (crossed : List (List Vec3)) :
    ∀ st : Map3 × Map3, runStreams pk B F mc lw st crossed =
      Except.map (fun d => st + d) (runStreams pk B F mc lw (zeroMap, zeroMap) crossed) := by
  induction crossed with
  | nil =>
    intro st
    simp only [runStreams, Except.map]
    rw [zeroPair_eq, add_zero]
  | cons pts rest ih =>
    intro st
    simp only [runStreams]
    rw [runSegs_shift pk B F mc lw (segsOf pts) st]
    cases hp : runSegs pk B F mc lw (zeroMap, zeroMap) (segsOf pts) with
    | error e => rfl
    | ok dp =>
      simp only [Except.map]
      rw [ih, ih dp]
      cases hb : runStreams pk B F mc lw (zeroMap, zeroMap) rest with
      | error e => rfl
      | ok d2 =>
        simp only [Except.map]
        rw [add_assoc]

/-- The outer loop splits over list append via `Except` sequencing. -/
theorem runStreams_append (pk : List ℝ → Vec3) (B : BVol) (F : FVol) (mc : ℝ)
    (lw : Bool) (l1 l2 : List (List Vec3)) :
    ∀ st : Map3 × Map3, runStreams pk B F mc lw st (l1 ++ l2) =
      (runStreams pk B F mc lw st l1).bind
        (fun st' => runStreams pk B F mc lw st' l2) := by
  induction l1 with
  | nil => intro st; rfl
  | cons pts rest ih =>
    intro st
    simp only [List.cons_append, runStreams]
    cases hp : runSegs pk B F mc lw st (segsOf pts) with
    | error e => rfl
    | ok st' => exact ih st'

/-- Processing the streamlines in reversed order produces the same result. -/
theorem runStreams_reverse (pk : List ℝ → Vec3) (B : BVol) (F : FVol) (mc : ℝ)
    (lw : Bool) (crossed : List (List Vec3)) :
    ∀ st : Map3 × Map3, runStreams pk B F mc lw st crossed.reverse =
      runStreams pk B F mc lw st crossed := by
  induction crossed with
  | nil => intro st; rfl
  | cons pts rest ih =>
    intro st
    rw [List.reverse_cons, runStreams_append]
    conv_lhs => rw [ih st]
    simp only [runStreams]
    rw [runStreams_shift pk B F mc lw rest st,
        runSegs_shift pk B F mc lw (segsOf pts) st]
    cases hr : runStreams pk B F mc lw (zeroMap, zeroMap) rest with
    | error e =>
      cases hp : runSegs pk B F mc lw (zeroMap, zeroMap) (segsOf pts) with
      | error e2 => rfl
      | ok dp =>
        simp only [Except.map, Except.bind]
        rw [runStreams_shift pk B F mc lw rest (st + dp), hr]
        rfl
    | ok dl =>
      cases hp : runSegs pk B F mc lw (zeroMap, zeroMap) (segsOf pts) with
      | error e2 =>
        simp only [Except.map, Except.bind, runStreams]
        rw [runSegs_shift pk B F mc lw (segsOf pts) (st + dl), hp]
        rfl
      | ok dp =>
        simp only [Except.map, Except.bind, runStreams]
        rw [runSegs_shift pk B F mc lw (segsOf pts) (st + dl), hp]
        simp only [Except.map]
        rw [runStreams_shift pk B F mc lw rest (st + dp), hr]
        simp only [Except.map, runStreams]
        rw [add_right_comm]

/-- A segment whose voxel index does not resolve against the Bingham volume
makes its step fail, from any state. -/
theorem segStep_oob (pk : List ℝ → Vec3) (B : BVol) (F : FVol) (mc : ℝ)
    (lw : Bool) (st : Map3 × Map3) (s : Seg)
    (h : npIndex3 B.nx B.ny B.nz (voxelOf s) = none) :
    segStep pk B F mc lw st s = .error () := by
  simp only [segStep, segDelta, h]

/-- If some segment of the list always fails, the inner loop fails. -/
theorem runSegs_error (pk : List ℝ → Vec3) (B : BVol) (F : FVol) (mc : ℝ)
    (lw : Bool) (l : List Seg) (s : Seg) (hs : s ∈ l)
    (hf : ∀ st : Map3 × Map3, segStep pk B F mc lw st s = .error ()) :
    ∀ st : Map3 × Map3, runSegs pk B F mc lw st l = .error () := by
  induction l with
  | nil => cases hs
  | cons a rest ih =>
    intro st
    simp only [runSegs]
    cases ha : segStep pk B F mc lw st a with
    | error e => rfl
    | ok st' =>
      rcases List.mem_cons.mp hs with h1 | h2
      · subst h1
        rw [hf st] at ha
        cases ha
      · exact ih h2 st'

/-- If some streamline of the list always fails, the outer loop fails. -/
theorem runStreams_error (pk : List ℝ → Vec3) (B : BVol) (F : FVol) (mc : ℝ)
    (lw : Bool) (crossed : List (List Vec3)) (pts : List Vec3)
    (hs : pts ∈ crossed)
    (hf : ∀ st : Map3 × Map3, runSegs pk B F mc lw st (segsOf pts) = .error ()) :
    ∀ st : Map3 × Map3, runStreams pk B F mc lw st crossed = .error () := by
  induction crossed with
  | nil => cases hs
  | cons a rest ih =>
    intro st
    simp only [runStreams]
    cases ha : runSegs pk B F mc lw st (segsOf a) with
    | error e => rfl
    | ok st' =>
      rcases List.mem_cons.mp hs with h1 | h2
      · subst h1
        rw [hf st] at ha
        cases ha
      · exact ih h2 st'


/-- Reading the accumulated voxel of an in-place accumulation. -/
theorem updAdd_same (m : Map3) (v : ℕ × ℕ × ℕ) (x : ℝ) :
    updAdd m v x v = m v + x := by
  simp [updAdd]

/-- Reading any other voxel of an in-place accumulation. -/
theorem updAdd_other (m : Map3) (v u : ℕ × ℕ × ℕ) (x : ℝ) (h : u ≠ v) :
    updAdd m v x u = m u := by
  simp [updAdd, h]

/-- Shape of a successful segment contribution: the accumulated density is
`fd_val * norm_weight`, the accumulated weight is `norm_weight` (the segment
length under length weighting, 1 otherwise), and the voxel is the segment's
voxel index resolved against the density volume's spatial extents. -/
theorem segDelta_shape (pk : List ℝ → Vec3) (B : BVol) (F : FVol) (mc : ℝ)
    (lw : Bool) (s : Seg) :
    segDelta pk B F mc lw s = .error () ∨
    ∃ vm fdv, segDelta pk B F mc lw s
        = .ok (vm, fdv * (if lw then s.len else 1), if lw then s.len else 1) ∧
      npIndex3 F.nx F.ny F.nz (voxelOf s) = some vm := by
  cases h1 : npIndex3 B.nx B.ny B.nz (voxelOf s) with
  | none => left; simp only [segDelta, h1]
  | some vb =>
    cases h2 : fdValSel mc
        ((B.data vb).map fun r => |dot3 (smul3 s.len⁻¹ s.dvec) (pk r)|)
        (lobeLookup F (voxelOf s)) with
    | error e => left; simp only [segDelta, h1, h2]
    | ok fdv =>
      cases h3 : npIndex3 F.nx F.ny F.nz (voxelOf s) with
      | none => left; simp only [segDelta, h1, h2, h3]
      | some vm =>
        right
        exact ⟨vm, fdv, by simp only [segDelta, h1, h2, h3], rfl⟩

/-- The contributions of one segment under the two weighting modes: both fail
together, or both succeed at the same voxel with the same density value,
with weight 1 in the unweighted mode and weight `len` in the weighted mode. -/
theorem segDelta_pair (pk : List ℝ → Vec3) (B : BVol) (F : FVol) (mc : ℝ)
    (s : Seg) :
    (segDelta pk B F mc false s = .error ()
      ∧ segDelta pk B F mc true s = .error ()) ∨
    ∃ vm fdv, segDelta pk B F mc false s = .ok (vm, fdv * 1, 1)
      ∧ segDelta pk B F mc true s = .ok (vm, fdv * s.len, s.len) := by
  cases h1 : npIndex3 B.nx B.ny B.nz (voxelOf s) with
  | none => left; constructor <;> simp only [segDelta, h1]
  | some vb =>
    cases h2 : fdValSel mc
        ((B.data vb).map fun r => |dot3 (smul3 s.len⁻¹ s.dvec) (pk r)|)
        (lobeLookup F (voxelOf s)) with
    | error e => left; constructor <;> simp only [segDelta, h1, h2]
    | ok fdv =>
      cases h3 : npIndex3 F.nx F.ny F.nz (voxelOf s) with
      | none => left; constructor <;> simp only [segDelta, h1, h2, h3]
      | some vm =>
        right
        refine ⟨vm, fdv, ?_, ?_⟩ <;> simp only [segDelta, h1, h2, h3] <;> simp

/-- Every segment surviving the zero-length filter has positive length. -/
theorem segsOf_len_pos (pts : List Vec3) : ∀ s ∈ segsOf pts, 0 < s.len := by
  induction pts with
  | nil => intro s hs; cases hs
  | cons a rest ih =>
    cases rest with
    | nil => intro s hs; cases hs
    | cons b rest2 =>
      intro s hs
      rw [segsOf] at hs
      rcases List.mem_append.mp hs with h1 | h2
      · by_cases h0 : norm3 (vsub b a) = 0
        · rw [if_pos h0] at h1; cases h1
        · rw [if_neg h0] at h1
          rcases List.mem_singleton.mp h1 with rfl
          exact lt_of_le_of_ne (norm3_nonneg _) (Ne.symm h0)
      · exact ih s h2

/-- One segment step preserves the sum/weight invariant, provided the
segment has positive length. -/
theorem segStep_inv (pk : List ℝ → Vec3) (B : BVol) (F : FVol) (mc : ℝ)
    (lw : Bool) (st : Map3 × Map3) (s : Seg) (st' : Map3 × Map3)
    (hlen : 0 < s.len)
    (hok : segStep pk B F mc lw st s = .ok st')
    (hinv : ∀ v, 0 ≤ st.2 v ∧ (st.2 v = 0 → st.1 v = 0)) :
    ∀ v, 0 ≤ st'.2 v ∧ (st'.2 v = 0 → st'.1 v = 0) := by
  unfold segStep at hok
  rcases segDelta_shape pk B F mc lw s with hd | ⟨vm, fdv, hd, _⟩
  · rw [hd] at hok; cases hok
  · rw [hd] at hok
    simp only [] at hok
    have hdw : (0 : ℝ) < if lw then s.len else 1 := by
      cases lw <;> simp [hlen]
    cases hok
    intro v
    dsimp only
    by_cases hv : v = vm
    · subst hv
      refine ⟨?_, ?_⟩
      · rw [updAdd_same]
        have := (hinv v).1
        linarith
      · intro h0
        exfalso
        rw [updAdd_same] at h0
        have := (hinv v).1
        linarith
    · rw [updAdd_other _ _ _ _ hv, updAdd_other _ _ _ _ hv]
      exact hinv v

/-- The inner segment loop preserves the sum/weight invariant. -/
theorem runSegs_inv (pk : List ℝ → Vec3) (B : BVol) (F : FVol) (mc : ℝ)
    (lw : Bool) (l : List Seg) (hl : ∀ s ∈ l, 0 < s.len) :
    ∀ st st' : Map3 × Map3, runSegs pk B F mc lw st l = .ok st' →
      (∀ v, 0 ≤ st.2 v ∧ (st.2 v = 0 → st.1 v = 0)) →
      ∀ v, 0 ≤ st'.2 v ∧ (st'.2 v = 0 → st'.1 v = 0) := by
  induction l with
  | nil =>
    intro st st' h hinv
    cases h
    exact hinv
  | cons s rest ih =>
    intro st st' h hinv
    rw [runSegs] at h
    cases ha : segStep pk B F mc lw st s with
    | error e => rw [ha] at h; cases h
    | ok st1 =>
      rw [ha] at h
      exact ih (fun t ht => hl t (List.mem_cons_of_mem s ht)) st1 st' h
        (segStep_inv pk B F mc lw st s st1 (hl s (List.mem_cons_self s rest)) ha hinv)

/-- The outer streamline loop preserves the sum/weight invariant. -/
theorem runStreams_inv (pk : List ℝ → Vec3) (B : BVol) (F : FVol) (mc : ℝ)
    (lw : Bool) (crossed : List (List Vec3)) :
    ∀ st st' : Map3 × Map3, runStreams pk B F mc lw st crossed = .ok st' →
      (∀ v, 0 ≤ st.2 v ∧ (st.2 v = 0 → st.1 v = 0)) →
      ∀ v, 0 ≤ st'.2 v ∧ (st'.2 v = 0 → st'.1 v = 0) := by
  induction crossed with
  | nil =>
    intro st st' h hinv
    cases h
    exact hinv
  | cons pts rest ih =>
    intro st st' h hinv
    rw [runStreams] at h
    cases ha : runSegs pk B F mc lw st (segsOf pts) with
    | error e => rw [ha] at h; cases h
    | ok st1 =>
      rw [ha] at h
      exact ih st1 st' h
        (runSegs_inv pk B F mc lw (segsOf pts) (segsOf_len_pos pts) st st1 ha hinv)

/-- The inner segment loop under the two weighting modes: both runs fail
together, or both succeed with weight maps that are nonnegative and zero at
exactly the same voxels. -/
theorem runSegs_pair (pk : List ℝ → Vec3) (B : BVol) (F : FVol) (mc : ℝ)
    (l : List Seg) (hl : ∀ s ∈ l, 0 < s.len) :
    ∀ st1 st2 : Map3 × Map3,
      (∀ v, 0 ≤ st1.2 v ∧ 0 ≤ st2.2 v ∧ (st1.2 v = 0 ↔ st2.2 v = 0)) →
      (runSegs pk B F mc false st1 l = .error ()
        ∧ runSegs pk B F mc true st2 l = .error ()) ∨
      ∃ r1 r2, runSegs pk B F mc false st1 l = .ok r1
        ∧ runSegs pk B F mc true st2 l = .ok r2
        ∧ ∀ v, 0 ≤ r1.2 v ∧ 0 ≤ r2.2 v ∧ (r1.2 v = 0 ↔ r2.2 v = 0) := by
  induction l with
  | nil =>
    intro st1 st2 hinv
    right
    exact ⟨st1, st2, rfl, rfl, hinv⟩
  | cons s rest ih =>
    intro st1 st2 hinv
    rcases segDelta_pair pk B F mc s with ⟨hd1, hd2⟩ | ⟨vm, fdv, hd1, hd2⟩
    · left
      refine ⟨?_, ?_⟩
      · simp only [runSegs, segStep, hd1]
      · simp only [runSegs, segStep, hd2]
    · have hlen := hl s (List.mem_cons_self s rest)
      have hrest : ∀ t ∈ rest, 0 < t.len :=
        fun t ht => hl t (List.mem_cons_of_mem s ht)
      have hinv' : ∀ v,
          0 ≤ (updAdd st1.1 vm (fdv * 1), updAdd st1.2 vm 1).2 v
          ∧ 0 ≤ (updAdd st2.1 vm (fdv * s.len), updAdd st2.2 vm s.len).2 v
          ∧ ((updAdd st1.1 vm (fdv * 1), updAdd st1.2 vm 1).2 v = 0
              ↔ (updAdd st2.1 vm (fdv * s.len), updAdd st2.2 vm s.len).2 v = 0) := by
        intro v
        dsimp only
        by_cases hv : v = vm
        · subst hv
          rw [updAdd_same, updAdd_same]
          obtain ⟨h1, h2, h3⟩ := hinv v
          refine ⟨by linarith, by linarith, ?_⟩
          constructor
          · intro h; exfalso; linarith
          · intro h; exfalso; linarith
        · rw [updAdd_other _ _ _ _ hv, updAdd_other _ _ _ _ hv]
          exact hinv v
      rcases ih hrest (updAdd st1.1 vm (fdv * 1), updAdd st1.2 vm 1)
          (updAdd st2.1 vm (fdv * s.len), updAdd st2.2 vm s.len) hinv' with
        ⟨he1, he2⟩ | ⟨r1, r2, hr1, hr2, hinvr⟩
      · left
        refine ⟨?_, ?_⟩
        · simp only [runSegs, segStep, hd1]; exact he1
        · simp only [runSegs, segStep, hd2]; exact he2
      · right
        refine ⟨r1, r2, ?_, ?_, hinvr⟩
        · simp only [runSegs, segStep, hd1]; exact hr1
        · simp only [runSegs, segStep, hd2]; exact hr2

/-- The outer streamline loop under the two weighting modes: both runs fail
together, or both succeed with weight maps that are zero at exactly the same
voxels. -/
theorem runStreams_pair (pk : List ℝ → Vec3) (B : BVol) (F : FVol) (mc : ℝ)
    (crossed : List (List Vec3)) :
    ∀ st1 st2 : Map3 × Map3,
      (∀ v, 0 ≤ st1.2 v ∧ 0 ≤ st2.2 v ∧ (st1.2 v = 0 ↔ st2.2 v = 0)) →
      (runStreams pk B F mc false st1 crossed = .error ()
        ∧ runStreams pk B F mc true st2 crossed = .error ()) ∨
      ∃ r1 r2, runStreams pk B F mc false st1 crossed = .ok r1
        ∧ runStreams pk B F mc true st2 crossed = .ok r2
        ∧ ∀ v, 0 ≤ r1.2 v ∧ 0 ≤ r2.2 v ∧ (r1.2 v = 0 ↔ r2.2 v = 0) := by
  induction crossed with
  | nil =>
    intro st1 st2 hinv
    right
    exact ⟨st1, st2, rfl, rfl, hinv⟩
  | cons pts rest ih =>
    intro st1 st2 hinv
    rcases runSegs_pair pk B F mc (segsOf pts) (segsOf_len_pos pts) st1 st2 hinv with
      ⟨he1, he2⟩ | ⟨m1, m2, hm1, hm2, hinvm⟩
    · left
      refine ⟨?_, ?_⟩
      · simp only [runStreams, he1]
      · simp only [runStreams, he2]
    · rcases ih m1 m2 hinvm with ⟨he1, he2⟩ | ⟨r1, r2, hr1, hr2, hinvr⟩
      · left
        refine ⟨?_, ?_⟩
        · simp only [runStreams, hm1]; exact he1
        · simp only [runStreams, hm2]; exact he2
      · right
        refine ⟨r1, r2, ?_, ?_, hinvr⟩
        · simp only [runStreams, hm1]; exact hr1
        · simp only [runStreams, hm2]; exact hr2

/-- The `np.argmax` index of a nonempty list is in range. -/
theorem argmaxIdx_lt (l : List ℝ) (h : l ≠ []) : argmaxIdx l < l.length := by
  induction l with
  | nil => exact absurd rfl h
  | cons a t ih =>
    rw [argmaxIdx]
    by_cases hm : ∀ c ∈ t, c ≤ a
    · rw [if_pos hm]
      simp
    · rw [if_neg hm]
      have ht : t ≠ [] := by
        intro h0
        subst h0
        exact hm (fun c hc => absurd hc (List.not_mem_nil c))
      simp only [List.length_cons]
      exact Nat.succ_lt_succ (ih ht)

/-- The element at the `np.argmax` index is maximal. -/
theorem argmaxIdx_max (l : List ℝ) :
    ∀ j < l.length, l.getD j 0 ≤ l.getD (argmaxIdx l) 0 := by
  induction l with
  | nil => intro j hj; exact absurd hj (Nat.not_lt_zero j)
  | cons a t ih =>
    intro j hj
    rw [argmaxIdx]
    by_cases hm : ∀ c ∈ t, c ≤ a
    · rw [if_pos hm]
      cases j with
      | zero => simp
      | succ k =>
        simp only [List.getD_cons_succ, List.getD_cons_zero]
        have hk : k < t.length := by simpa using hj
        rw [List.getD_eq_get t 0 hk]
        exact hm _ (List.get_mem t k hk)
    · rw [if_neg hm]
      push_neg at hm
      obtain ⟨c, hc, hac⟩ := hm
      cases j with
      | zero =>
        simp only [List.getD_cons_succ, List.getD_cons_zero]
        obtain ⟨i, hi, hic⟩ := List.mem_iff_getElem.mp hc
        have h1 : t.getD i 0 = c := by
          rw [List.getD_eq_get t 0 hi, List.get_eq_getElem]
          exact hic
        have h2 := ih i hi
        rw [h1] at h2
        linarith
      | succ k =>
        simp only [List.getD_cons_succ]
        exact ih k (by simpa using hj)

/-- Every element strictly before the `np.argmax` index is strictly below the
maximum: ties are broken by the lowest index. -/
theorem argmaxIdx_first (l : List ℝ) :
    ∀ j < argmaxIdx l, l.getD j 0 < l.getD (argmaxIdx l) 0 := by
  induction l with
  | nil => intro j hj; rw [argmaxIdx] at hj; exact absurd hj (Nat.not_lt_zero j)
  | cons a t ih =>
    intro j hj
    rw [argmaxIdx] at hj ⊢
    by_cases hm : ∀ c ∈ t, c ≤ a
    · rw [if_pos hm] at hj
      exact absurd hj (Nat.not_lt_zero j)
    · rw [if_neg hm] at hj ⊢
      push_neg at hm
      obtain ⟨c, hc, hac⟩ := hm
      cases j with
      | zero =>
        simp only [List.getD_cons_succ, List.getD_cons_zero]
        obtain ⟨i, hi, hic⟩ := List.mem_iff_getElem.mp hc
        have h1 : t.getD i 0 = c := by
          rw [List.getD_eq_get t 0 hi, List.get_eq_getElem]
          exact hic
        have h2 := argmaxIdx_max t i hi
        rw [h1] at h2
        linarith
      | succ k =>
        simp only [List.getD_cons_succ]
        exact ih k (Nat.lt_of_succ_lt_succ hj)

/-- Value of `min_cos_theta` at the 30-degree threshold. -/
theorem minCosOf_thirty : minCosOf 30 = Real.sqrt 3 / 2 := by
  unfold minCosOf
  rw [show (30 : ℝ) * π / 180 = π / 6 by ring]
  exact Real.cos_pi_div_six

/-- The square root of 3 lies strictly below 2. -/
theorem sqrt3_lt_two : Real.sqrt 3 < 2 := by
  have h : (3 : ℝ) < 2 ^ 2 := by norm_num
  nlinarith [Real.sq_sqrt (by norm_num : (3:ℝ) ≥ 0), Real.sqrt_nonneg 3]

/-- The norm of the difference of a point with itself vanishes. -/
theorem norm3_vsub_self (p : Vec3) : norm3 (vsub p p) = 0 := by
  have h : vsub p p = ⟨0, 0, 0⟩ := by simp [vsub]
  rw [h]
  exact (norm3_eq_zero _).mpr rfl

/-- Dropping a duplicated consecutive point leaves the surviving segment
list unchanged: the zero-length segment is filtered out and every other
segment, with its start point, is the same. -/
theorem segsOf_dup (p : Vec3) (ys : List Vec3) :
    ∀ xs : List Vec3, segsOf (xs ++ p :: p :: ys) = segsOf (xs ++ p :: ys) := by
  intro xs
  induction xs with
  | nil => simp [segsOf, norm3_vsub_self]
  | cons x xs' ih =>
    cases xs' with
    | nil => simp [segsOf, norm3_vsub_self]
    | cons x' xs'' =>
      simp only [List.cons_append] at ih
      simp only [List.cons_append, List.append_eq, segsOf]
      rw [ih]

/-- C5: every zero-length segment is dropped entirely before further
processing: a streamline containing two identical consecutive points yields,
silently and without error, exactly the accumulator result of the same
streamline with the duplicate point removed, for any surrounding streamlines
and any parameter settings. -/
theorem zero_length_segment_dropped (pk : List ℝ → Vec3) (B : BVol) (F : FVol)
    (maxTheta : ℝ) (lw : Bool) (pre post : List (List Vec3))
    (xs ys : List Vec3) (p : Vec3) :
    fd_sum_along_streamlines pk B F maxTheta lw (pre ++ (xs ++ p :: p :: ys) :: post) =
      fd_sum_along_streamlines pk B F maxTheta lw (pre ++ (xs ++ p :: ys) :: post) := by
  unfold fd_sum_along_streamlines
  rw [runStreams_append, runStreams_append]
  congr 1
  funext st'
  simp only [runStreams]
  rw [segsOf_dup p ys xs]

/-- C9: processing the streamlines in reversed order produces sum, weight,
and output volumes equal to those of the original order. -/
theorem order_invariance (pk : List ℝ → Vec3) (B : BVol) (F : FVol)
    (maxTheta : ℝ) (lw : Bool) (crossed : List (List Vec3)) :
    fd_sum_along_streamlines pk B F maxTheta lw crossed.reverse =
      fd_sum_along_streamlines pk B F maxTheta lw crossed ∧
    fiber_density_map_along_streamlines pk B F maxTheta lw crossed.reverse =
      fiber_density_map_along_streamlines pk B F maxTheta lw crossed := by
  have h := runStreams_reverse pk B F (minCosOf maxTheta) lw crossed (zeroMap, zeroMap)
  refine ⟨h, ?_⟩
  unfold fiber_density_map_along_streamlines fd_sum_along_streamlines
  rw [h]

/-- C3: for every input, the weight map returned by the accumulator is
nonnegative, a zero-weight voxel carries a zero density sum, and the
normalized output vanishes at every zero-weight voxel. -/
theorem fd_weight_invariant (pk : List ℝ → Vec3) (B : BVol) (F : FVol)
    (maxTheta : ℝ) (lw : Bool) (crossed : List (List Vec3)) (s w : Map3)
    (h : fd_sum_along_streamlines pk B F maxTheta lw crossed = .ok (s, w)) :
    (∀ v, 0 ≤ w v ∧ (w v = 0 → s v = 0))
    ∧ (∀ v, w v = 0 → normalizeMaps s w v = 0) := by
  unfold fd_sum_along_streamlines at h
  have hinv := runStreams_inv pk B F (minCosOf maxTheta) lw crossed
    (zeroMap, zeroMap) (s, w) h (fun v => ⟨le_refl 0, fun _ => rfl⟩)
  refine ⟨fun v => hinv v, fun v hv => ?_⟩
  have h2 := (hinv v).2 hv
  simp only at h2
  unfold normalizeMaps
  rw [if_pos h2, h2]

/-- C4: given sum and weight volumes satisfying the invariant, the normalizer
returns sum / weight at every voxel of nonzero weight and zero at every voxel
of zero weight, and the weight volume comes back unchanged. -/
theorem normalizer_spec (s w : Map3) (hinv : ∀ v, w v = 0 → s v = 0) :
    (∀ v, normalizeMaps s w v = if w v = 0 then 0 else s v / w v)
    ∧ (normalizePair s w).2 = w := by
  refine ⟨fun v => ?_, rfl⟩
  unfold normalizeMaps
  by_cases hs : s v = 0
  · rw [if_pos hs, hs]
    by_cases hw : w v = 0
    · rw [if_pos hw]
    · rw [if_neg hw, zero_div]
  · rw [if_neg hs]
    have hw : w v ≠ 0 := fun h0 => hs (hinv v h0)
    rw [if_neg hw]

/-- C10: on any streamline set, with any nondegeneracy assumption on the raw
segments, the unweighted and length-weighted runs touch exactly the same set
of voxels: their weight maps are nonzero at the same places. -/
theorem touched_voxels_weighting (pk : List ℝ → Vec3) (B : BVol) (F : FVol)
    (maxTheta : ℝ) (crossed : List (List Vec3)) (s1 w1 s2 w2 : Map3)
    (hnd : ∀ pts ∈ crossed, allPairsNonZero pts)
    (h1 : fd_sum_along_streamlines pk B F maxTheta false crossed = .ok (s1, w1))
    (h2 : fd_sum_along_streamlines pk B F maxTheta true crossed = .ok (s2, w2)) :
    ∀ v, w1 v ≠ 0 ↔ w2 v ≠ 0 := by
  unfold fd_sum_along_streamlines at h1 h2
  rcases runStreams_pair pk B F (minCosOf maxTheta) crossed (zeroMap, zeroMap)
      (zeroMap, zeroMap) (fun v => ⟨le_refl 0, le_refl 0, Iff.rfl⟩) with
    ⟨he1, he2⟩ | ⟨r1, r2, hr1, hr2, hinv⟩
  · rw [he1] at h1
    cases h1
  · rw [hr1] at h1
    rw [hr2] at h2
    injection h1 with h1'
    injection h2 with h2'
    subst h1'
    subst h2'
    intro v
    exact not_congr (hinv v).2.2

/-- C2: the lobe selection rule: when no absolute cosine similarity strictly
exceeds `min_cos_theta` (in particular at exactly the threshold angle) the
density value is 0; when some similarity strictly exceeds it, the value is
looked up at the `np.argmax` lobe, which attains the maximal similarity and
is the lowest index attaining it. -/
theorem lobe_selection_rule (maxTheta : ℝ) (dir : Vec3) (peaks : List Vec3)
    (lookup : ℕ → Except Unit ℝ) :
    ((∀ p ∈ peaks, |dot3 dir p| ≤ minCosOf maxTheta) →
      fdValSel (minCosOf maxTheta) (peaks.map fun p => |dot3 dir p|) lookup = .ok 0) ∧
    ((∃ p ∈ peaks, minCosOf maxTheta < |dot3 dir p|) →
      fdValSel (minCosOf maxTheta) (peaks.map fun p => |dot3 dir p|) lookup
        = lookup (argmaxIdx (peaks.map fun p => |dot3 dir p|))
      ∧ argmaxIdx (peaks.map fun p => |dot3 dir p|) < peaks.length
      ∧ (∀ j < peaks.length,
          (peaks.map fun p => |dot3 dir p|).getD j 0
            ≤ (peaks.map fun p => |dot3 dir p|).getD
                (argmaxIdx (peaks.map fun p => |dot3 dir p|)) 0)
      ∧ (∀ j < argmaxIdx (peaks.map fun p => |dot3 dir p|),
          (peaks.map fun p => |dot3 dir p|).getD j 0
            < (peaks.map fun p => |dot3 dir p|).getD
                (argmaxIdx (peaks.map fun p => |dot3 dir p|)) 0)) := by
  constructor
  · intro hall
    have hno : ¬ ∃ c ∈ peaks.map fun p => |dot3 dir p|, minCosOf maxTheta < c := by
      rintro ⟨c, hc, hlt⟩
      obtain ⟨p, hp, rfl⟩ := List.mem_map.mp hc
      exact absurd hlt (not_lt.mpr (hall p hp))
    unfold fdValSel
    rw [if_neg hno]
  · rintro ⟨p, hp, hlt⟩
    have hex : ∃ c ∈ peaks.map fun p => |dot3 dir p|, minCosOf maxTheta < c :=
      ⟨|dot3 dir p|, List.mem_map_of_mem _ hp, hlt⟩
    have hne : (peaks.map fun p => |dot3 dir p|) ≠ [] := by
      simp only [ne_eq, List.map_eq_nil_iff]
      exact List.ne_nil_of_mem hp
    refine ⟨?_, ?_, ?_, argmaxIdx_first _⟩
    · unfold fdValSel
      rw [if_pos hex]
    · have h := argmaxIdx_lt _ hne
      simpa using h
    · intro j hj
      exact argmaxIdx_max _ j (by simpa using hj)

/-- Truncation of a coordinate in the unit interval. -/
theorem truncZ_zero (x : ℝ) (h1 : 0 ≤ x) (h2 : x < 1) : truncZ x = 0 := by
  unfold truncZ
  rw [if_pos h1]
  exact Int.floor_eq_zero_iff.mpr ⟨h1, h2⟩

/-- Truncation toward zero of a coordinate in (-2, -1]. -/
theorem truncZ_negOne (x : ℝ) (h1 : -2 < x) (h2 : x ≤ -1) : truncZ x = -1 := by
  unfold truncZ
  rw [if_neg (by linarith)]
  rw [Int.ceil_eq_iff]
  push_cast
  constructor
  · linarith
  · linarith

/-- Truncation of a coordinate in [2, 3). -/
theorem truncZ_two (x : ℝ) (h1 : 2 ≤ x) (h2 : x < 3) : truncZ x = 2 := by
  unfold truncZ
  rw [if_pos (by linarith)]
  rw [Int.floor_eq_iff]
  push_cast
  constructor
  · linarith
  · linarith

/-- Norm of a vector along the x axis with nonnegative coordinate. -/
theorem norm3_axis (a : ℝ) (h : 0 ≤ a) : norm3 ⟨a, 0, 0⟩ = a := by
  unfold norm3 dot3
  dsimp only
  rw [show a * a + 0 * 0 + 0 * 0 = a ^ 2 by ring, Real.sqrt_sq h]

/-- Segment extraction of a two-point streamline with a nonzero segment. -/
theorem segsOf_two (a b : Vec3) (h : norm3 (vsub b a) ≠ 0) :
    segsOf [a, b] = [⟨a, vsub b a, norm3 (vsub b a)⟩] := by
  simp only [segsOf, if_neg h, List.append_nil]

/-- Evaluation scheme for one segment contribution: once the voxel index and
the three lookups are computed, the contribution is determined. -/
theorem segDelta_eval (pk : List ℝ → Vec3) (B : BVol) (F : FVol) (mc : ℝ)
    (lw : Bool) (s : Seg) (vox : ℤ × ℤ × ℤ) (vb vm : ℕ × ℕ × ℕ) (fdv : ℝ)
    (hvox : voxelOf s = vox)
    (hB : npIndex3 B.nx B.ny B.nz vox = some vb)
    (hfd : fdValSel mc ((B.data vb).map fun r => |dot3 (smul3 s.len⁻¹ s.dvec) (pk r)|)
        (lobeLookup F vox) = .ok fdv)
    (hF : npIndex3 F.nx F.ny F.nz vox = some vm) :
    segDelta pk B F mc lw s
      = .ok (vm, fdv * (if lw then s.len else 1), if lw then s.len else 1) := by
  simp only [segDelta, hvox, hB, hfd, hF]

/-- The single-lobe density lookup of the scenario volume `Fone` returns 2 at
any voxel index resolving to (0, 0, 0). -/
theorem lobeLookup_Fone (vox : ℤ × ℤ × ℤ)
    (h : npIndex3 1 1 1 vox = some (0, 0, 0)) :
    lobeLookup Fone vox 0 = .ok 2 := by
  unfold lobeLookup
  rw [show npIndex3 Fone.nx Fone.ny Fone.nz vox = some (0, 0, 0) from h]
  rfl

/-- Selection over the single matching lobe of the scenario: cosine 1 exceeds
the 30-degree threshold and the density 2 is returned. -/
theorem fdValSel_one (vox : ℤ × ℤ × ℤ)
    (h : npIndex3 1 1 1 vox = some (0, 0, 0)) :
    fdValSel (minCosOf 30) [(1 : ℝ)] (lobeLookup Fone vox) = .ok 2 := by
  have hgt : minCosOf 30 < 1 := by
    rw [minCosOf_thirty]
    nlinarith [sqrt3_lt_two]
  unfold fdValSel
  rw [if_pos ⟨1, by simp, hgt⟩]
  rw [show argmaxIdx [(1 : ℝ)] = 0 from by rw [argmaxIdx]; simp]
  exact lobeLookup_Fone vox h

/-- Reading back a single accumulation on the zero map. -/
theorem updAdd_zero_at (v : ℕ × ℕ × ℕ) (x : ℝ) : updAdd zeroMap v x v = x := by
  rw [updAdd_same]
  simp [zeroMap]

/-- The single-lobe cosine list of the scenario volume: the unit x direction
against the unit x peak gives cosine 1. -/
theorem cosList_one (vb : ℕ × ℕ × ℕ) :
    (Bone.data vb).map (fun r => |dot3 ⟨1, 0, 0⟩ (pkOne r)|) = [(1 : ℝ)] := by
  simp [Bone, pkOne, dot3]

/-- The surviving segment of the scenario streamline: direction (1/2, 0, 0)
of length 1/2 starting at (1/4, 1/2, 1/2). -/
theorem segsOf_ptsOne :
    segsOf ptsOne = [⟨⟨1/4, 1/2, 1/2⟩, ⟨1/2, 0, 0⟩, 1/2⟩] := by
  unfold ptsOne
  have hv : vsub ⟨3/4, 1/2, 1/2⟩ ⟨1/4, 1/2, 1/2⟩ = (⟨1/2, 0, 0⟩ : Vec3) := by
    simp only [vsub, Vec3.mk.injEq]
    norm_num
  rw [segsOf_two _ _ (by rw [hv, norm3_axis (1/2) (by norm_num)]; norm_num)]
  rw [hv, norm3_axis (1/2) (by norm_num)]

/-- Contribution of the scenario segment: density 2 at voxel (0, 0, 0), unit
weight without length weighting and weight 1/2 with it. -/
theorem segDelta_one (lw : Bool) :
    segDelta pkOne Bone Fone (minCosOf 30) lw ⟨⟨1/4, 1/2, 1/2⟩, ⟨1/2, 0, 0⟩, 1/2⟩
      = .ok ((0, 0, 0), 2 * (if lw then (1/2 : ℝ) else 1),
             if lw then (1/2 : ℝ) else 1) := by
  apply segDelta_eval pkOne Bone Fone (minCosOf 30) lw _ (0, 0, 0) (0, 0, 0) (0, 0, 0) 2
  · unfold voxelOf truncVec vadd smul3
    dsimp only
    rw [truncZ_zero _ (by norm_num) (by norm_num),
        truncZ_zero _ (by norm_num) (by norm_num)]
  · decide
  · dsimp only
    rw [show smul3 ((1/2 : ℝ))⁻¹ ⟨1/2, 0, 0⟩ = (⟨1, 0, 0⟩ : Vec3) from by
          simp only [smul3, Vec3.mk.injEq]
          norm_num]
    rw [cosList_one]
    exact fdValSel_one _ (by decide)
  · decide

/-- Accumulator result on the scenario streamline, in both weighting modes. -/
theorem fd_sum_one (lw : Bool) :
    fd_sum_along_streamlines pkOne Bone Fone 30 lw [ptsOne]
      = .ok (updAdd zeroMap (0, 0, 0) (2 * (if lw then (1/2 : ℝ) else 1)),
             updAdd zeroMap (0, 0, 0) (if lw then (1/2 : ℝ) else 1)) := by
  unfold fd_sum_along_streamlines
  simp only [runStreams, segsOf_ptsOne, runSegs, segStep, segDelta_one lw]

/-- Accumulator result on the scenario streamline without length weighting:
sum 2, weight 1 at voxel (0, 0, 0). -/
theorem fd_sum_one_false :
    fd_sum_along_streamlines pkOne Bone Fone 30 false [ptsOne]
      = .ok (updAdd zeroMap (0, 0, 0) 2, updAdd zeroMap (0, 0, 0) 1) := by
  have h := fd_sum_one false
  norm_num at h
  exact h

/-- Accumulator result on the scenario streamline with length weighting:
sum 1, weight 1/2 at voxel (0, 0, 0). -/
theorem fd_sum_one_true :
    fd_sum_along_streamlines pkOne Bone Fone 30 true [ptsOne]
      = .ok (updAdd zeroMap (0, 0, 0) 1, updAdd zeroMap (0, 0, 0) (1/2)) := by
  have h := fd_sum_one true
  norm_num at h
  exact h

/-- C1: the end-to-end scenario: a single straight streamline of segment
length 1/2 through voxel (0, 0, 0) whose single matching lobe has peak
direction equal to the streamline direction and density 2, with
`max_theta = 30`: without length weighting the output at that voxel is 2;
with length weighting the accumulated sum is 1, the accumulated weight is
1/2, and the output is still 2. -/
theorem end_to_end_scenario :
    (fiber_density_map_along_streamlines pkOne Bone Fone 30 false [ptsOne]).toOption.map
        (fun m => m (0, 0, 0)) = some 2
    ∧ (fd_sum_along_streamlines pkOne Bone Fone 30 true [ptsOne]).toOption.map
        (fun p => (p.1 (0, 0, 0), p.2 (0, 0, 0))) = some (1, 1/2)
    ∧ (fiber_density_map_along_streamlines pkOne Bone Fone 30 true [ptsOne]).toOption.map
        (fun m => m (0, 0, 0)) = some 2 := by
  refine ⟨?_, ?_, ?_⟩
  · unfold fiber_density_map_along_streamlines
    rw [fd_sum_one_false]
    simp only [Except.toOption, Option.map_some']
    norm_num [normalizeMaps, updAdd_zero_at]
  · rw [fd_sum_one_true]
    simp only [Except.toOption, Option.map_some']
    norm_num [updAdd_zero_at]
  · unfold fiber_density_map_along_streamlines
    rw [fd_sum_one_true]
    simp only [Except.toOption, Option.map_some']
    norm_num [normalizeMaps, updAdd_zero_at]

/-- The surviving segment of the negative-coordinate streamline: direction
(1, 0, 0) of length 1 starting at (-8/5, 1/2, 1/2). -/
theorem segsOf_ptsNeg :
    segsOf ptsNeg = [⟨⟨-(8/5), 1/2, 1/2⟩, ⟨1, 0, 0⟩, 1⟩] := by
  unfold ptsNeg
  have hv : vsub ⟨-(3/5), 1/2, 1/2⟩ ⟨-(8/5), 1/2, 1/2⟩ = (⟨1, 0, 0⟩ : Vec3) := by
    simp only [vsub, Vec3.mk.injEq]
    norm_num
  rw [segsOf_two _ _ (by rw [hv, norm3_axis 1 (by norm_num)]; norm_num)]
  rw [hv, norm3_axis 1 (by norm_num)]

/-- Contribution of the negative-coordinate segment: its voxel index is
(-1, 0, 0), which numpy indexing silently wraps to the in-bounds voxel
(0, 0, 0), where density 2 and weight 1 are accumulated without error. -/
theorem segDelta_neg :
    segDelta pkOne Bone Fone (minCosOf 30) false ⟨⟨-(8/5), 1/2, 1/2⟩, ⟨1, 0, 0⟩, 1⟩
      = .ok ((0, 0, 0), 2 * 1, 1) := by
  have h := segDelta_eval pkOne Bone Fone (minCosOf 30) false
      ⟨⟨-(8/5), 1/2, 1/2⟩, ⟨1, 0, 0⟩, 1⟩ (-1, 0, 0) (0, 0, 0) (0, 0, 0) 2 ?hvox ?hB ?hfd ?hF
  · simpa using h
  case hvox =>
    unfold voxelOf truncVec vadd smul3
    dsimp only
    rw [truncZ_negOne _ (by norm_num) (by norm_num),
        truncZ_zero _ (by norm_num) (by norm_num)]
  case hB => decide
  case hfd =>
    dsimp only
    rw [show smul3 ((1 : ℝ))⁻¹ ⟨1, 0, 0⟩ = (⟨1, 0, 0⟩ : Vec3) from by
          simp only [smul3, Vec3.mk.injEq]
          norm_num]
    rw [cosList_one]
    exact fdValSel_one _ (by decide)
  case hF => decide

/-- Accumulator result on the negative-coordinate streamline: it completes
without error and accumulates into voxel (0, 0, 0). -/
theorem fd_sum_neg :
    fd_sum_along_streamlines pkOne Bone Fone 30 false [ptsNeg]
      = .ok (updAdd zeroMap (0, 0, 0) 2, updAdd zeroMap (0, 0, 0) 1) := by
  unfold fd_sum_along_streamlines
  simp only [runStreams, segsOf_ptsNeg, runSegs, segStep, segDelta_neg]
  norm_num

/-- The surviving segment of the far streamline: direction (1, 0, 0) of
length 1 starting at (21/10, 1/2, 1/2), with midpoint x coordinate 26/10. -/
theorem segsOf_ptsFar :
    segsOf ptsFar = [⟨⟨21/10, 1/2, 1/2⟩, ⟨1, 0, 0⟩, 1⟩] := by
  unfold ptsFar
  have hv : vsub ⟨31/10, 1/2, 1/2⟩ ⟨21/10, 1/2, 1/2⟩ = (⟨1, 0, 0⟩ : Vec3) := by
    simp only [vsub, Vec3.mk.injEq]
    norm_num
  rw [segsOf_two _ _ (by rw [hv, norm3_axis 1 (by norm_num)]; norm_num)]
  rw [hv, norm3_axis 1 (by norm_num)]

/-- The voxel index of the far segment is (2, 0, 0), out of the 1×1×1 volume
even under numpy wrap-around. -/
theorem voxelOf_far :
    voxelOf ⟨⟨21/10, 1/2, 1/2⟩, ⟨1, 0, 0⟩, 1⟩ = (2, 0, 0) := by
  unfold voxelOf truncVec vadd smul3
  dsimp only
  rw [truncZ_two _ (by norm_num) (by norm_num),
      truncZ_zero _ (by norm_num) (by norm_num)]

/-- The single-lobe cosine list of the mismatched Bingham volume. -/
theorem cosList_two (vb : ℕ × ℕ × ℕ) :
    (Btwo.data vb).map (fun r => |dot3 ⟨1, 0, 0⟩ (pkOne r)|) = [(1 : ℝ)] := by
  simp [Btwo, pkOne, dot3]

/-- Contribution of the scenario segment against the mismatched volumes: the
2×2×2 Bingham volume and the 1×1×1 density volume disagree on extents, yet
the segment is processed without any shape check and without error. -/
theorem segDelta_mismatch (lw : Bool) :
    segDelta pkOne Btwo Fone (minCosOf 30) lw ⟨⟨1/4, 1/2, 1/2⟩, ⟨1/2, 0, 0⟩, 1/2⟩
      = .ok ((0, 0, 0), 2 * (if lw then (1/2 : ℝ) else 1),
             if lw then (1/2 : ℝ) else 1) := by
  apply segDelta_eval pkOne Btwo Fone (minCosOf 30) lw _ (0, 0, 0) (0, 0, 0) (0, 0, 0) 2
  · unfold voxelOf truncVec vadd smul3
    dsimp only
    rw [truncZ_zero _ (by norm_num) (by norm_num),
        truncZ_zero _ (by norm_num) (by norm_num)]
  · decide
  · dsimp only
    rw [show smul3 ((1/2 : ℝ))⁻¹ ⟨1/2, 0, 0⟩ = (⟨1, 0, 0⟩ : Vec3) from by
          simp only [smul3, Vec3.mk.injEq]
          norm_num]
    rw [cosList_two]
    exact fdValSel_one _ (by decide)
  · decide

/-- Accumulator result on the scenario streamline against mismatched volume
extents: the run completes normally. -/
theorem fd_sum_mismatch :
    fd_sum_along_streamlines pkOne Btwo Fone 30 false [ptsOne]
      = .ok (updAdd zeroMap (0, 0, 0) 2, updAdd zeroMap (0, 0, 0) 1) := by
  unfold fd_sum_along_streamlines
  simp only [runStreams, segsOf_ptsOne, runSegs, segStep, segDelta_mismatch false]
  norm_num

/-- C6 counterexample: a streamline whose computed voxel index is (-1, 0, 0),
outside the 1×1×1 volume extents, is accepted without any error: the run
returns `.ok` and has silently accumulated weight 1 into the in-bounds voxel
(0, 0, 0), because numpy wraps negative indices. -/
theorem oob_counterexample :
    (fd_sum_along_streamlines pkOne Bone Fone 30 false [ptsNeg]).toOption.map
        (fun p => p.2 (0, 0, 0)) = some 1 := by
  rw [fd_sum_neg]
  simp only [Except.toOption, Option.map_some']
  rw [updAdd_zero_at]

/-- C6 as amended: a computed voxel index with a component at or beyond an
extent, or below the negative of an extent, makes the whole accumulator call
fail with an indexing error the moment the segment is processed; components
in [-extent, -1], by contrast, wrap silently (see the counterexample). -/
theorem oob_error_behavior (pk : List ℝ → Vec3) (B : BVol) (F : FVol)
    (maxTheta : ℝ) (lw : Bool) (crossed : List (List Vec3)) (pts : List Vec3)
    (s : Seg) (h1 : pts ∈ crossed) (h2 : s ∈ segsOf pts)
    (h3 : npIndex3 B.nx B.ny B.nz (voxelOf s) = none) :
    fd_sum_along_streamlines pk B F maxTheta lw crossed = .error () := by
  unfold fd_sum_along_streamlines
  exact runStreams_error pk B F (minCosOf maxTheta) lw crossed pts h1
    (runSegs_error pk B F (minCosOf maxTheta) lw (segsOf pts) s h2
      (fun st => segStep_oob pk B F (minCosOf maxTheta) lw st s h3)) _

/-- Witness for the amended C6: the far streamline, with voxel index
(2, 0, 0) against the 1×1×1 volume, makes the call fail. -/
theorem oob_error_behavior_witness :
    fd_sum_along_streamlines pkOne Bone Fone 30 false [ptsFar] = .error () := by
  apply oob_error_behavior pkOne Bone Fone 30 false [ptsFar] ptsFar
      ⟨⟨21/10, 1/2, 1/2⟩, ⟨1, 0, 0⟩, 1⟩
  · exact List.mem_singleton_self _
  · rw [segsOf_ptsFar]
    exact List.mem_singleton_self _
  · rw [voxelOf_far]
    decide

/-- C7 counterexample: with a 2×2×2 Bingham volume and a 1×1×1 density
volume — disagreeing spatial extents — the computation does not abort before
processing: it processes the streamline and completes, returning maps with
weight 1 accumulated at voxel (0, 0, 0). -/
theorem shape_check_counterexample :
    (fd_sum_along_streamlines pkOne Btwo Fone 30 false [ptsOne]).toOption.map
        (fun p => p.2 (0, 0, 0)) = some 1 := by
  rw [fd_sum_mismatch]
  simp only [Except.toOption, Option.map_some']
  rw [updAdd_zero_at]

/-- C7 as amended: no eager shape check exists: even when the volumes
disagree on spatial extents the accumulator starts processing normally, and
with an empty streamline set it returns the zero maps successfully; a
mismatch can only surface lazily as a per-segment indexing error. -/
theorem no_eager_shape_check (pk : List ℝ → Vec3) (B : BVol) (F : FVol)
    (maxTheta : ℝ) (lw : Bool)
    (hmismatch : (B.nx, B.ny, B.nz) ≠ (F.nx, F.ny, F.nz)) :
    fd_sum_along_streamlines pk B F maxTheta lw [] = .ok (zeroMap, zeroMap) := rfl

/-- Witness for the amended C7 at the mismatched pair of scenario volumes. -/
theorem no_eager_shape_check_witness :
    fd_sum_along_streamlines pkOne Btwo Fone 30 false [] = .ok (zeroMap, zeroMap) :=
  no_eager_shape_check pkOne Btwo Fone 30 false (by decide)

/-- C8 counterexample: calling the accumulator on a tractogram whose origin
is the voxel center changes the caller's container: the post-call container
differs from the pre-call one (its origin has moved to the corner and its
points have been shifted). -/
theorem sft_mutation_counterexample :
    (fd_sum_sft pkOne id Bone Fone 30 false
        ⟨Space.vox, Origin.center, id, [[⟨0, 0, 0⟩]]⟩).1
      ≠ ⟨Space.vox, Origin.center, id, [[⟨0, 0, 0⟩]]⟩ := by
  intro h
  have hpost : (fd_sum_sft pkOne id Bone Fone 30 false
      ⟨Space.vox, Origin.center, id, [[⟨0, 0, 0⟩]]⟩).1.origin = Origin.corner := by
    show ((SFT.to_vox _).to_corner).origin = Origin.corner
    unfold SFT.to_vox SFT.to_corner
    rw [if_pos rfl]
    rw [if_neg (by decide)]
  rw [h] at hpost
  exact absurd hpost (by decide)

/-- C8 as amended: besides the two accumulator volumes, the only state the
accumulator changes is the caller's tractogram container, which it converts
in place to voxel space and corner origin before processing; when the
container is already in voxel space with corner origin it is left unchanged. -/
theorem sft_mutation (pk : List ℝ → Vec3) (gi : List Vec3 → List Vec3)
    (B : BVol) (F : FVol) (maxTheta : ℝ) (lw : Bool) (sft : SFT) :
    (fd_sum_sft pk gi B F maxTheta lw sft).1 = (sft.to_vox).to_corner
    ∧ (sft.space = Space.vox → sft.origin = Origin.corner →
        (fd_sum_sft pk gi B F maxTheta lw sft).1 = sft) := by
  refine ⟨rfl, fun h1 h2 => ?_⟩
  show (sft.to_vox).to_corner = sft
  unfold SFT.to_vox SFT.to_corner
  rw [if_pos h1]
  rw [if_pos h2]

/-- Witness for the amended C8: a container already in voxel space with
corner origin comes back unchanged. -/
theorem sft_mutation_witness :
    (fd_sum_sft pkOne id Bone Fone 30 false
        ⟨Space.vox, Origin.corner, id, [[⟨0, 0, 0⟩]]⟩).1
      = ⟨Space.vox, Origin.corner, id, [[⟨0, 0, 0⟩]]⟩ :=
  (sft_mutation pkOne id Bone Fone 30 false
      ⟨Space.vox, Origin.corner, id, [[⟨0, 0, 0⟩]]⟩).2 rfl rfl

/-- Witness for C2: a segment at exactly 30 degrees from the single peak
(cosine exactly `min_cos_theta`) is excluded and yields 0; a segment aligned
with the peak (cosine 1) selects the lobe's density 3. -/
theorem lobe_selection_rule_witness :
    fdValSel (minCosOf 30)
        ([(⟨1, 0, 0⟩ : Vec3)].map fun p => |dot3 ⟨Real.sqrt 3 / 2, 1/2, 0⟩ p|)
        (fun _ => .ok 3) = .ok 0
    ∧ fdValSel (minCosOf 30)
        ([(⟨1, 0, 0⟩ : Vec3)].map fun p => |dot3 ⟨1, 0, 0⟩ p|)
        (fun _ => .ok 3) = .ok 3 := by
  constructor
  · apply (lobe_selection_rule 30 ⟨Real.sqrt 3 / 2, 1/2, 0⟩ [⟨1, 0, 0⟩]
        (fun _ => .ok 3)).1
    intro p hp
    rw [List.mem_singleton] at hp
    subst hp
    rw [minCosOf_thirty]
    unfold dot3
    dsimp only
    rw [show Real.sqrt 3 / 2 * 1 + 1/2 * 0 + 0 * 0 = Real.sqrt 3 / 2 by ring]
    rw [abs_of_nonneg (by positivity)]
  · have hlt : minCosOf 30 < |dot3 (⟨1, 0, 0⟩ : Vec3) (⟨1, 0, 0⟩ : Vec3)| := by
      rw [minCosOf_thirty]
      unfold dot3
      dsimp only
      rw [show (1 : ℝ) * 1 + 0 * 0 + 0 * 0 = 1 by ring, abs_one]
      nlinarith [sqrt3_lt_two]
    exact ((lobe_selection_rule 30 ⟨1, 0, 0⟩ [⟨1, 0, 0⟩] (fun _ => .ok 3)).2
      ⟨⟨1, 0, 0⟩, List.mem_singleton_self _, hlt⟩).1

/-- Witness for C3 at the scenario run: the accumulated weight at voxel
(0, 0, 0) is nonnegative and the zero-weight implication holds there. -/
theorem fd_weight_invariant_witness :
    0 ≤ updAdd zeroMap (0, 0, 0) 1 (0, 0, 0)
    ∧ (updAdd zeroMap (0, 0, 0) 1 (0, 0, 0) = 0
        → updAdd zeroMap (0, 0, 0) 2 (0, 0, 0) = 0) :=
  (fd_weight_invariant pkOne Bone Fone 30 false [ptsOne] _ _ fd_sum_one_false).1
    (0, 0, 0)

/-- Witness for C4 at a concrete sum 4 / weight 2 voxel. -/
theorem normalizer_spec_witness :
    normalizeMaps (updAdd zeroMap (0, 0, 0) 4) (updAdd zeroMap (0, 0, 0) 2) (0, 0, 0)
      = if updAdd zeroMap (0, 0, 0) 2 (0, 0, 0) = 0 then 0
        else updAdd zeroMap (0, 0, 0) 4 (0, 0, 0) / updAdd zeroMap (0, 0, 0) 2 (0, 0, 0) := by
  apply (normalizer_spec (updAdd zeroMap (0, 0, 0) 4) (updAdd zeroMap (0, 0, 0) 2) ?hinv).1
  case hinv =>
    intro v hv
    by_cases h : v = (0, 0, 0)
    · subst h
      rw [updAdd_zero_at] at hv
      norm_num at hv
    · rw [updAdd_other _ _ _ _ h] at hv ⊢
      exact hv

/-- Witness for C10 at the scenario run: voxel (0, 0, 0) is touched in both
weighting modes (weights 1 and 1/2 respectively). -/
theorem touched_voxels_weighting_witness :
    (updAdd zeroMap (0, 0, 0) 1 (0, 0, 0) ≠ 0)
      ↔ (updAdd zeroMap (0, 0, 0) (1/2) (0, 0, 0) ≠ 0) := by
  have hnd : ∀ pts ∈ [ptsOne], allPairsNonZero pts := by
    intro pts hpts
    rw [List.mem_singleton] at hpts
    subst hpts
    unfold ptsOne
    simp only [allPairsNonZero]
    refine ⟨fun hc => ?_, trivial⟩
    have hx := congrArg Vec3.x hc
    unfold vsub at hx
    dsimp only at hx
    norm_num at hx
  exact touched_voxels_weighting pkOne Bone Fone 30 [ptsOne] _ _ _ _ hnd
    fd_sum_one_false fd_sum_one_true (0, 0, 0)
